import Mathlib

/-!
Shallow embedding of the `smarkov` Markov-chain library
(`src/smarkov/markov.py`) together with proofs about its training and
generation behaviour.

Tokens are modelled as strings, matching the concrete start sentinel `'^'`
and end sentinel `'$'` hard-coded in `Markov.__init__`.  Dictionaries are
modelled as association lists (key order follows Python insertion order),
counts as naturals, and the normalised probabilities as rationals.  The
random weighted choice of `utils.weighted_choice` and the possibility of
non-termination of the generation loop are made explicit: generation is
parameterised by a choice oracle `pick` and by a fuel bound, with
`GenResult.fuelOut` marking fuel exhaustion (a run of the Python loop that
has not yet finished).  Failures of the two `assert` statements reachable
from generation are modelled by `GenErr`.

The helper module `smarkov/utils.py` is not part of the sources; its three
primitives (`prefilled_buffer`, `get_suffixes`, `weighted_choice`) are
modelled from the contracts in the specification, as marked on their
definitions.
-/

namespace Smarkov

/-- Tokens are opaque hashable values in the source; the sentinels are the
one-character strings used by `Markov.__init__`, so strings model them. -/
abbrev Token := String

/-- The start sentinel `self._start_symbol = '^'`. -/
def startSymbol : Token := "^"

/-- The end sentinel `self._end_symbol = '$'`. -/
def endSymbol : Token := "$"

/-- Inner counting dictionary `defaultdict(int)`: next token to count. -/
abbrev CountsDist := List (Token × Nat)

/-- Outer counting dictionary: history key to inner counting dictionary. -/
abbrev CountsTable := List (List Token × CountsDist)

/-- Normalised inner dictionary: next token to probability. -/
abbrev ProbDist := List (Token × ℚ)

/-- Normalised transition table `self.transitions` after
`_compute_relative_probs` ran. -/
abbrev ProbTable := List (List Token × ProbDist)

/-- Python dict lookup on an association list keyed by history tuples. -/
def lookupTable {β : Type} (tbl : List (List Token × β)) (key : List Token) : Option β :=
  match tbl with
  | [] => none
  | (k, v) :: rest => if k = key then some v else lookupTable rest key

/-- Modelled from the spec: `utils.prefilled_buffer` is missing from the
sources; per the external-interface contract it is a fixed-length sliding
buffer with every slot pre-filled with the given sentinel. -/
def prefilledBuffer (sym : Token) (length : Nat) : List Token :=
  List.replicate length sym

/-- Modelled from the spec: appending to the missing sliding-buffer
primitive evicts the oldest element, keeping the buffer at its fixed
capacity (the buffer is always full, being constructed pre-filled). -/
def bufAppend (buf : List Token) (t : Token) : List Token :=
  buf.tail ++ [t]

/-- Modelled from the spec: `utils.get_suffixes` is missing from the
sources; per the external-interface contract it yields all trailing
contiguous sub-sequences of the buffer, of lengths 1 up to the buffer's
full length. -/
def getSuffixes (buf : List Token) : List (List Token) :=
  (List.range buf.length).map (fun i => buf.drop i)

/-- One `self.transitions[suffix][token_value] += 1` on the inner
dictionary: bump the token's count, inserting it with count 1 if absent
(`defaultdict(int)` semantics, insertion at the end). -/
def incrInner (inner : CountsDist) (tok : Token) : CountsDist :=
  match inner with
  | [] => [(tok, 1)]
  | (t, c) :: rest => if t = tok then (t, c + 1) :: rest else (t, c) :: incrInner rest tok

/-- One `self.transitions[suffix][token_value] += 1` on the outer
dictionary: update the key's inner dictionary, inserting a fresh singleton
inner dictionary if the key is absent (`defaultdict` semantics). -/
def incrTable (tbl : CountsTable) (key : List Token) (tok : Token) : CountsTable :=
  match tbl with
  | [] => [(key, [(tok, 1)])]
  | (k, inner) :: rest =>
      if k = key then (k, incrInner inner tok) :: rest
      else (k, inner) :: incrTable rest key tok

/-- The inner `for suffix in utils.get_suffixes(last_tokens)` loop of
`_compute_transitions`: one increment per suffix of the current buffer. -/
def processEmission (tbl : CountsTable) (buf : List Token) (tok : Token) : CountsTable :=
  (getSuffixes buf).foldl (fun tb s => incrTable tb s tok) tbl

/-- The `for token_value in chain(tokens, self._end_symbol)` loop of
`_compute_transitions`, walking the buffer along the extended token list. -/
def processEntryAux (tbl : CountsTable) (buf : List Token) (l : List Token) : CountsTable :=
  match l with
  | [] => tbl
  | t :: rest => processEntryAux (processEmission tbl buf t) (bufAppend buf t) rest

/-- The counting phase of `_compute_transitions`: fold over the corpus,
processing each entry from a fresh start-sentinel-filled buffer.  The
chained `self._end_symbol` iterates over the one-character string `'$'`,
hence appends exactly the single token `endSymbol`. -/
def computeCounts {ε : Type} (corpus : List ε) (order : Nat) (tokenize : ε → List Token) :
    CountsTable :=
  corpus.foldl
    (fun tbl entry =>
      processEntryAux tbl (prefilledBuffer startSymbol order) (tokenize entry ++ [endSymbol]))
    []

/-- Normalisation of one inner dictionary by `_compute_relative_probs`:
divide each count by the key's summed occurrences when that sum is
positive, otherwise leave the counts untouched (cast to ℚ for typing). -/
def normalizeInner (inner : CountsDist) : ProbDist :=
  let s : Nat := (inner.map (fun p => p.2)).sum
  if 0 < s then inner.map (fun p => (p.1, (p.2 : ℚ) / (s : ℚ)))
  else inner.map (fun p => (p.1, (p.2 : ℚ)))

/-- `_compute_relative_probs`: normalise every value of the table in
place. -/
def computeRelativeProbs (tbl : CountsTable) : ProbTable :=
  tbl.map (fun p => (p.1, normalizeInner p.2))

/-- `_compute_transitions`: counting followed by normalisation. -/
def computeTransitions {ε : Type} (corpus : List ε) (order : Nat) (tokenize : ε → List Token) :
    ProbTable :=
  computeRelativeProbs (computeCounts corpus order tokenize)

/-- The `Markov` class: order, the two sentinels, the tokenizer and the
trained transition table. -/
structure Markov (ε : Type) where
  order : Nat
  startSym : Token
  endSym : Token
  tokenize : ε → List Token
  transitions : ProbTable

/-- `Markov.__init__`: the three asserts (order at least 1, order at most
20, corpus not `None`) followed by training.  A `None` corpus is modelled
by `Option.none`; an assertion failure by `Except.error` carrying the
assert's message. -/
def markovInit {ε : Type} (corpus : Option (List ε)) (order : Nat) (tokenize : ε → List Token) :
    Except String (Markov ε) :=
  if order < 1 then .error "Invalid Markov chain order"
  else if 20 < order then .error "Markov chain order too high"
  else
    match corpus with
    | none => .error "Corpus is empty"
    | some c => .ok ⟨order, startSymbol, endSymbol, tokenize, computeTransitions c order tokenize⟩

/-- Failures reachable from the generation loop: the key-membership
assertion of `_generate_next_token_helper` (UnknownHistoryKey), and a
weighted choice that yields nothing (EmptyDistribution). -/
inductive GenErr where
  | unknownKey : List Token → GenErr
  | pickFail : List Token → GenErr
deriving DecidableEq

/-- Result of running the generation loop with a fuel bound: a returned
sequence, a fatal error, or fuel exhaustion (the Python loop still
running). -/
inductive GenResult where
  | ok : List Token → GenResult
  | err : GenErr → GenResult
  | fuelOut : GenResult
deriving DecidableEq

/-- `_generate_next_token_helper`: assert that the full history tuple is a
key of the transition table, then draw from its distribution with the
weighted-choice oracle `pick` (modelled from the spec contract for the
missing `utils.weighted_choice`). -/
def generateNextTokenHelper (pick : ProbDist → Option Token) (transitions : ProbTable)
    (pastStates : List Token) : Except GenErr Token :=
  match lookupTable transitions pastStates with
  | none => .error (.unknownKey pastStates)
  | some dist =>
      match pick dist with
      | none => .error (.pickFail pastStates)
      | some t => .ok t

/-- The default emit transform `lambda x, _, __: x` of `_text_generator`. -/
def defaultEmit : Token → List Token → List Token → Token := fun x _ _ => x

/-- The while loop of `_text_generator`: while the buffer's last entry is
not the end sentinel, sample a token, emit, record the emission, slide the
buffers, and break once `max_length + 1` emissions are collected. -/
def textGenAux (nextToken : List Token → Except GenErr Token)
    (emit : Token → List Token → List Token → Token) (maxLength : Option Nat) :
    Nat → List Token → List Token → List Token → GenResult
  | 0, _, _, _ => .fuelOut
  | fuel + 1, lastTokens, lastEmissions, generated =>
    if lastTokens.getLast? = some endSymbol then .ok generated
    else
      match nextToken lastTokens with
      | .error e => .err e
      | .ok newToken =>
          let emission := emit newToken lastTokens lastEmissions
          let generated2 := generated ++ [emission]
          match maxLength with
          | some m =>
              if m + 1 ≤ generated2.length then .ok generated2
              else
                textGenAux nextToken emit maxLength fuel (bufAppend lastTokens newToken)
                  (bufAppend lastEmissions emission) generated2
          | none =>
              textGenAux nextToken emit maxLength fuel (bufAppend lastTokens newToken)
                (bufAppend lastEmissions emission) generated2

/-- `_text_generator`: run the loop from start-sentinel-filled buffers and
return the collected emissions with the trailing element dropped
(`generated_tokens[:-1]`).  The class never sets `order_emissions`, yet the
two buffer lengths stay separate parameters, mirroring the `hasattr`
check. -/
def textGenerator (nextToken : List Token → Except GenErr Token)
    (emit : Token → List Token → List Token → Token) (maxLength : Option Nat)
    (order orderEmissions fuel : Nat) : GenResult :=
  match textGenAux nextToken emit maxLength fuel (prefilledBuffer startSymbol order)
      (prefilledBuffer startSymbol orderEmissions) [] with
  | .ok gen => .ok gen.dropLast
  | r => r

/-- `generate_text`: `_text_generator` with `_generate_next_token` (the
helper applied to `self.transitions`) and the default identity emit; both
buffer lengths are `self.order` since `order_emissions` is never set. -/
def generateText {ε : Type} (m : Markov ε) (pick : ProbDist → Option Token)
    (maxLength : Option Nat) (fuel : Nat) : GenResult :=
  textGenerator (generateNextTokenHelper pick m.transitions) defaultEmit maxLength
    m.order m.order fuel

/-! ### Increment events

The counting phase decomposed into its individual `+= 1` events, used to
reason about which keys the trained table contains. -/

/-- The list of `(suffix, token)` increments performed while walking one
extended token list from a given buffer. -/
def entryEventsAux (buf : List Token) (l : List Token) : List (List Token × Token) :=
  match l with
  | [] => []
  | t :: rest => (getSuffixes buf).map (fun s => (s, t)) ++ entryEventsAux (bufAppend buf t) rest

/-- All increments performed for one corpus entry. -/
def entryEvents (order : Nat) (tokens : List Token) : List (List Token × Token) :=
  entryEventsAux (prefilledBuffer startSymbol order) (tokens ++ [endSymbol])

/-- All increments performed during training, in execution order. -/
def trainEvents {ε : Type} (corpus : List ε) (order : Nat) (tokenize : ε → List Token) :
    List (List Token × Token) :=
  corpus.flatMap (fun entry => entryEvents order (tokenize entry))

/-- One increment step, as folded over the event list. -/
def incrStep (tbl : CountsTable) (p : List Token × Token) : CountsTable :=
  incrTable tbl p.1 p.2

/-- The pair `(key, tok)` has a recorded entry in the counting table. -/
def hasPair (tbl : CountsTable) (key : List Token) (tok : Token) : Prop :=
  ∃ inner c, lookupTable tbl key = some inner ∧ (tok, c) ∈ inner

/-! ### Stateful generation model

The transition table is a `defaultdict`, whose item access inserts a
default value at a missing key.  To settle the frame claim, generation is
re-run while threading the model through every dictionary access that
could mutate it. -/

/-- Item access `transitions[key]` on the outer `defaultdict`: return the
stored inner dictionary, or insert (at the end, per dict semantics) and
return a fresh empty one. -/
def ddGet (tbl : ProbTable) (key : List Token) : ProbDist × ProbTable :=
  match lookupTable tbl key with
  | some v => (v, tbl)
  | none => ([], tbl ++ [(key, [])])

/-- Stateful `_generate_next_token_helper`: the membership assert runs
first (`key in transitions` does not insert); only when it passes is the
table indexed, and an assert failure aborts before any access. -/
def generateNextTokenHelperSt {ε : Type} (pick : ProbDist → Option Token) (m : Markov ε)
    (pastStates : List Token) : Except GenErr Token × Markov ε :=
  if (lookupTable m.transitions pastStates).isSome then
    let res := ddGet m.transitions pastStates
    let m2 : Markov ε := { m with transitions := res.2 }
    match pick res.1 with
    | none => (.error (.pickFail pastStates), m2)
    | some t => (.ok t, m2)
  else (.error (.unknownKey pastStates), m)

/-- Stateful `_text_generator` loop, threading the model through every
step's dictionary accesses. -/
def textGenAuxSt {ε : Type} (pick : ProbDist → Option Token)
    (emit : Token → List Token → List Token → Token) (maxLength : Option Nat) :
    Nat → Markov ε → List Token → List Token → List Token → GenResult × Markov ε
  | 0, m, _, _, _ => (.fuelOut, m)
  | fuel + 1, m, lastTokens, lastEmissions, generated =>
    if lastTokens.getLast? = some endSymbol then (.ok generated, m)
    else
      let r := generateNextTokenHelperSt pick m lastTokens
      match r.1 with
      | .error e => (.err e, r.2)
      | .ok newToken =>
          let emission := emit newToken lastTokens lastEmissions
          let generated2 := generated ++ [emission]
          match maxLength with
          | some mx =>
              if mx + 1 ≤ generated2.length then (.ok generated2, r.2)
              else
                textGenAuxSt pick emit maxLength fuel r.2 (bufAppend lastTokens newToken)
                  (bufAppend lastEmissions emission) generated2
          | none =>
              textGenAuxSt pick emit maxLength fuel r.2 (bufAppend lastTokens newToken)
                (bufAppend lastEmissions emission) generated2

/-- Stateful `generate_text`, returning the result together with the model
as it stands after the call. -/
def generateTextSt {ε : Type} (m : Markov ε) (pick : ProbDist → Option Token)
    (maxLength : Option Nat) (fuel : Nat) : GenResult × Markov ε :=
  let r := textGenAuxSt pick defaultEmit maxLength fuel m
    (prefilledBuffer startSymbol m.order) (prefilledBuffer startSymbol m.order) []
  match r.1 with
  | .ok gen => (.ok gen.dropLast, r.2)
  | _ => r

/-- First outcome of positive weight, a concrete instance of the
weighted-choice contract used by the witnesses. -/
def pickFirstPositive (dist : ProbDist) : Option Token :=
  ((dist.filter (fun p => 0 < p.2)).head?).map (fun p => p.1)

/-- First outcome of the distribution, a degenerate deterministic choice
oracle used by witnesses that need no weight positivity. -/
def pickFirst (dist : ProbDist) : Option Token :=
  dist.head?.map (fun p => p.1)

/-- A tiny trained model used by the witnesses: corpus of the single entry
`["a"]`, order 1, identity tokenizer. -/
def witnessModel : Markov (List String) :=
  ⟨1, startSymbol, endSymbol, fun x => x, computeTransitions [["a"]] 1 (fun x => x)⟩

/-- A model trained on the empty corpus (accepted by construction), whose
transition table is empty; used by the witnesses. -/
def emptyModel : Markov (List String) :=
  ⟨1, startSymbol, endSymbol, fun x => x,
    computeTransitions ([] : List (List String)) 1 (fun x => x)⟩

/-- Every count of the inner dictionary is at least 1. -/
def innerPos (inner : CountsDist) : Prop :=
  ∀ q ∈ inner, 1 ≤ q.2

/-- Every key of the counting table maps to a nonempty inner dictionary
whose counts are all at least 1. -/
def tablePos (tbl : CountsTable) : Prop :=
  ∀ p ∈ tbl, p.2 ≠ [] ∧ innerPos p.2

/-! ## Basic buffer lemmas -/

theorem startSymbol_ne_endSymbol : startSymbol ≠ endSymbol := by
  decide

theorem prefilledBuffer_length (sym : Token) (n : Nat) :
    (prefilledBuffer sym n).length = n := by
  simp [prefilledBuffer]

theorem prefilledBuffer_getLast (sym : Token) (n : Nat) (h : 1 ≤ n) :
    (prefilledBuffer sym n).getLast? = some sym := by
  obtain ⟨k, rfl⟩ : ∃ k, n = k + 1 := ⟨n - 1, by omega⟩
  simp [prefilledBuffer, List.replicate_succ', List.getLast?_concat]

theorem bufAppend_getLast (buf : List Token) (t : Token) :
    (bufAppend buf t).getLast? = some t := by
  simp [bufAppend, List.getLast?_concat]

theorem bufAppend_length (buf : List Token) (t : Token) (h : 1 ≤ buf.length) :
    (bufAppend buf t).length = buf.length := by
  simp [bufAppend]
  omega

theorem getSuffixes_length (buf : List Token) :
    (getSuffixes buf).length = buf.length := by
  simp [getSuffixes]

theorem self_mem_getSuffixes (buf : List Token) (h : 1 ≤ buf.length) :
    buf ∈ getSuffixes buf := by
  simp only [getSuffixes, List.mem_map]
  exact ⟨0, List.mem_range.mpr (by omega), by simp⟩

/-! ## Counting lemmas -/

theorem lookupTable_incrTable (tbl : CountsTable) (key : List Token) (tok : Token)
    (k : List Token) :
    lookupTable (incrTable tbl key tok) k =
      if k = key then some (incrInner ((lookupTable tbl key).getD []) tok)
      else lookupTable tbl k := by
  induction tbl with
  | nil =>
      by_cases h : k = key
      · subst h
        simp [incrTable, lookupTable, incrInner]
      · simp [incrTable, lookupTable, incrInner, h, Ne.symm h]
  | cons p rest ih =>
      obtain ⟨k0, inner⟩ := p
      by_cases h0 : k0 = key
      · subst h0
        by_cases h : k = k0
        · subst h
          simp [incrTable, lookupTable]
        · simp [incrTable, lookupTable, h, Ne.symm h]
      · by_cases h : k0 = k
        · subst h
          simp [incrTable, lookupTable, h0, fun h2 : k0 = key => h0 h2]
        · simp [incrTable, lookupTable, h0, h, ih]

theorem exists_mem_incrInner (inner : CountsDist) (tok t : Token) :
    (∃ c, (t, c) ∈ incrInner inner tok) ↔ (∃ c, (t, c) ∈ inner) ∨ t = tok := by
  induction inner with
  | nil => simp [incrInner]
  | cons q rest ih =>
      obtain ⟨t0, c0⟩ := q
      simp only [incrInner]
      split_ifs with h
      · subst h
        simp only [List.mem_cons, Prod.mk.injEq]
        aesop
      · simp only [List.mem_cons, Prod.mk.injEq]
        constructor
        · rintro ⟨c, hc | hc⟩
          · exact Or.inl ⟨c, Or.inl hc⟩
          · rcases ih.mp ⟨c, hc⟩ with ⟨c2, hc2⟩ | h1
            · exact Or.inl ⟨c2, Or.inr hc2⟩
            · exact Or.inr h1
        · rintro (⟨c, hc | hc⟩ | h1)
          · exact ⟨c, Or.inl hc⟩
          · obtain ⟨c2, hc2⟩ := ih.mpr (Or.inl ⟨c, hc⟩)
            exact ⟨c2, Or.inr hc2⟩
          · obtain ⟨c2, hc2⟩ := ih.mpr (Or.inr h1)
            exact ⟨c2, Or.inr hc2⟩

theorem hasPair_incrTable (tbl : CountsTable) (key : List Token) (tok : Token)
    (k : List Token) (t : Token) :
    hasPair (incrTable tbl key tok) k t ↔ hasPair tbl k t ∨ (k = key ∧ t = tok) := by
  have hkey := lookupTable_incrTable tbl key tok k
  by_cases h : k = key
  · subst h
    rw [if_pos rfl] at hkey
    have l1 : hasPair (incrTable tbl k tok) k t ↔
        ∃ c, (t, c) ∈ incrInner ((lookupTable tbl k).getD []) tok := by
      simp [hasPair, hkey]
    rw [l1, exists_mem_incrInner]
    cases hl : lookupTable tbl k with
    | none => simp [hasPair, hl]
    | some inner => simp [hasPair, hl]
  · rw [if_neg h] at hkey
    simp [hasPair, hkey, h]

theorem hasPair_foldl (evs : List (List Token × Token)) :
    ∀ (tbl : CountsTable) (k : List Token) (t : Token),
      hasPair (evs.foldl incrStep tbl) k t ↔ hasPair tbl k t ∨ (k, t) ∈ evs := by
  induction evs with
  | nil => simp
  | cons p rest ih =>
      intro tbl k t
      obtain ⟨pk, pt⟩ := p
      simp only [List.foldl_cons, ih, incrStep, hasPair_incrTable, List.mem_cons,
        Prod.mk.injEq]
      tauto

theorem hasPair_nil (k : List Token) (t : Token) : ¬ hasPair [] k t := by
  simp [hasPair, lookupTable]

theorem processEmission_eq (tbl : CountsTable) (buf : List Token) (t : Token) :
    processEmission tbl buf t = ((getSuffixes buf).map (fun s => (s, t))).foldl incrStep tbl := by
  simp [processEmission, List.foldl_map, incrStep]

theorem processEntryAux_eq (l : List Token) :
    ∀ (tbl : CountsTable) (buf : List Token),
      processEntryAux tbl buf l = (entryEventsAux buf l).foldl incrStep tbl := by
  induction l with
  | nil => intro tbl buf; rfl
  | cons t rest ih =>
      intro tbl buf
      simp [processEntryAux, entryEventsAux, List.foldl_append, processEmission_eq, ih]

theorem computeCounts_eq {ε : Type} (corpus : List ε) (order : Nat) (tok : ε → List Token) :
    computeCounts corpus order tok = (trainEvents corpus order tok).foldl incrStep [] := by
  suffices h : ∀ tbl : CountsTable,
      corpus.foldl
        (fun tb entry =>
          processEntryAux tb (prefilledBuffer startSymbol order) (tok entry ++ [endSymbol]))
        tbl = (trainEvents corpus order tok).foldl incrStep tbl by
    exact h []
  induction corpus with
  | nil => intro tbl; rfl
  | cons e rest ih =>
      intro tbl
      rw [List.foldl_cons, ih, processEntryAux_eq]
      simp only [trainEvents, List.flatMap_cons, List.foldl_append]
      rfl

theorem hasPair_computeCounts {ε : Type} (corpus : List ε) (order : Nat)
    (tok : ε → List Token) (k : List Token) (t : Token) :
    hasPair (computeCounts corpus order tok) k t ↔ (k, t) ∈ trainEvents corpus order tok := by
  rw [computeCounts_eq, hasPair_foldl]
  simp [hasPair_nil]

/-! ## Positivity invariant of the counting table -/

theorem incrInner_ne_nil (inner : CountsDist) (tok : Token) : incrInner inner tok ≠ [] := by
  cases inner with
  | nil => simp [incrInner]
  | cons q rest =>
      obtain ⟨t0, c0⟩ := q
      simp only [incrInner]
      split_ifs <;> simp

theorem innerPos_incrInner (inner : CountsDist) (tok : Token) (h : innerPos inner) :
    innerPos (incrInner inner tok) := by
  induction inner with
  | nil =>
      intro q hq
      simp only [incrInner, List.mem_singleton] at hq
      simp [hq]
  | cons p rest ih =>
      obtain ⟨t0, c0⟩ := p
      have hrest : innerPos rest := fun q hq => h q (List.mem_cons_of_mem _ hq)
      have hc0 : 1 ≤ c0 := h (t0, c0) (List.mem_cons_self _ _)
      intro q hq
      simp only [incrInner] at hq
      split_ifs at hq with h0
      · rcases List.mem_cons.mp hq with rfl | hq2
        · omega
        · exact hrest q hq2
      · rcases List.mem_cons.mp hq with rfl | hq2
        · exact hc0
        · exact ih hrest q hq2

theorem tablePos_incrTable (tbl : CountsTable) (key : List Token) (tok : Token)
    (h : tablePos tbl) : tablePos (incrTable tbl key tok) := by
  induction tbl with
  | nil =>
      intro p hp
      simp only [incrTable, List.mem_singleton] at hp
      subst hp
      exact ⟨by simp, by intro q hq; simp at hq; simp [hq]⟩
  | cons p0 rest ih =>
      obtain ⟨k0, inner0⟩ := p0
      have h0 := h (k0, inner0) (List.mem_cons_self _ _)
      have hrest : tablePos rest := fun p hp => h p (List.mem_cons_of_mem _ hp)
      intro p hp
      simp only [incrTable] at hp
      split_ifs at hp with hk
      · rcases List.mem_cons.mp hp with rfl | hp2
        · exact ⟨incrInner_ne_nil _ _, innerPos_incrInner _ _ h0.2⟩
        · exact hrest p hp2
      · rcases List.mem_cons.mp hp with rfl | hp2
        · exact h0
        · exact ih hrest p hp2

theorem tablePos_foldl (evs : List (List Token × Token)) :
    ∀ tbl : CountsTable, tablePos tbl → tablePos (evs.foldl incrStep tbl) := by
  induction evs with
  | nil => intro tbl h; exact h
  | cons p rest ih =>
      intro tbl h
      exact ih _ (tablePos_incrTable tbl p.1 p.2 h)

theorem tablePos_computeCounts {ε : Type} (corpus : List ε) (order : Nat)
    (tok : ε → List Token) : tablePos (computeCounts corpus order tok) := by
  rw [computeCounts_eq]
  exact tablePos_foldl _ [] (by intro p hp; simp at hp)

theorem lookupTable_mem {β : Type} (tbl : List (List Token × β)) (k : List Token) (v : β)
    (h : lookupTable tbl k = some v) : (k, v) ∈ tbl := by
  induction tbl with
  | nil => simp [lookupTable] at h
  | cons p rest ih =>
      obtain ⟨k0, v0⟩ := p
      simp only [lookupTable] at h
      split_ifs at h with hk
      · obtain rfl := hk
        obtain rfl : v0 = v := by injection h
        exact List.mem_cons_self _ _
      · exact List.mem_cons_of_mem _ (ih h)

theorem innerPos_sum_pos (inner : CountsDist) (h : innerPos inner) (hne : inner ≠ []) :
    0 < (inner.map (fun p => p.2)).sum := by
  cases inner with
  | nil => exact absurd rfl hne
  | cons q rest =>
      have hq := h q (List.mem_cons_self _ _)
      simp only [List.map_cons, List.sum_cons]
      omega

/-! ## Normalisation lemmas -/

theorem lookupTable_computeRelativeProbs (tbl : CountsTable) (k : List Token) :
    lookupTable (computeRelativeProbs tbl) k = (lookupTable tbl k).map normalizeInner := by
  induction tbl with
  | nil => simp [computeRelativeProbs, lookupTable]
  | cons p rest ih =>
      obtain ⟨k0, inner⟩ := p
      by_cases h : k0 = k
      · subst h
        simp [computeRelativeProbs, lookupTable]
      · simpa [computeRelativeProbs, lookupTable, h] using ih

theorem map_fst_normalizeInner (inner : CountsDist) :
    (normalizeInner inner).map (fun p => p.1) = inner.map (fun p => p.1) := by
  simp only [normalizeInner]
  split_ifs <;> simp [List.map_map]

theorem sum_map_div (l : CountsDist) (s : ℚ) :
    ((l.map (fun p => ((p.1 : Token), (p.2 : ℚ) / s))).map (fun p => p.2)).sum =
      (l.map (fun p => (p.2 : ℚ))).sum / s := by
  induction l with
  | nil => simp
  | cons q rest ih => simp only [List.map_cons, List.sum_cons, ih, add_div]

theorem sum_map_cast (l : CountsDist) :
    (l.map (fun p => ((p.2 : ℚ)))).sum = (((l.map (fun p => p.2)).sum : Nat) : ℚ) := by
  induction l with
  | nil => simp
  | cons q rest ih =>
      simp only [List.map_cons, List.sum_cons, ih]
      push_cast
      ring

theorem normalizeInner_sum_one (inner : CountsDist)
    (h : 0 < (inner.map (fun p => p.2)).sum) :
    ((normalizeInner inner).map (fun p => p.2)).sum = 1 := by
  have hs : (inner.map (fun p => p.2)).sum ≠ 0 := by omega
  simp only [normalizeInner]
  rw [if_pos h, sum_map_div, sum_map_cast, div_self (by exact_mod_cast hs)]

/-! ## Event-count lemmas -/

theorem entryEventsAux_length (order : Nat) (h : 1 ≤ order) :
    ∀ (l buf : List Token), buf.length = order →
      (entryEventsAux buf l).length = l.length * order := by
  intro l
  induction l with
  | nil => intro buf hb; simp [entryEventsAux]
  | cons t rest ih =>
      intro buf hb
      have hb2 : (bufAppend buf t).length = order := by
        rw [bufAppend_length buf t (by omega), hb]
      simp only [entryEventsAux, List.length_append, List.length_map, getSuffixes_length, hb,
        ih (bufAppend buf t) hb2, List.length_cons]
      ring

theorem entryEventsAux_key_length (order : Nat) (h : 1 ≤ order) :
    ∀ (l buf : List Token), buf.length = order →
      ∀ p ∈ entryEventsAux buf l, 1 ≤ p.1.length ∧ p.1.length ≤ order := by
  intro l
  induction l with
  | nil => intro buf hb p hp; simp [entryEventsAux] at hp
  | cons t rest ih =>
      intro buf hb p hp
      rcases List.mem_append.mp hp with hp1 | hp2
      · obtain ⟨s, hs, rfl⟩ := List.mem_map.mp hp1
        simp only [getSuffixes, List.mem_map] at hs
        obtain ⟨i, hi, rfl⟩ := hs
        have hi2 : i < buf.length := List.mem_range.mp hi
        simp only [List.length_drop]
        omega
      · have hb2 : (bufAppend buf t).length = order := by
          rw [bufAppend_length buf t (by omega), hb]
        exact ih (bufAppend buf t) hb2 p hp2

/-! ## Claim theorems for the trainer -/

/-- Claim C1: after construction on any corpus with order in [1, 20], every
history key present in the transition table carries the distribution
obtained by dividing each of that key's counts by the key's total count,
and those probabilities sum to exactly 1. -/
theorem computeTransitions_sum_one {ε : Type} (corpus : List ε) (order : Nat)
    (tok : ε → List Token) (h1 : 1 ≤ order) (h2 : order ≤ 20) (k : List Token) (dist : ProbDist)
    (hk : lookupTable (computeTransitions corpus order tok) k = some dist) :
    ∃ inner : CountsDist,
      lookupTable (computeCounts corpus order tok) k = some inner ∧
      0 < (inner.map (fun p => p.2)).sum ∧
      dist = inner.map
        (fun p => (p.1, (p.2 : ℚ) / (((inner.map (fun q => q.2)).sum : Nat) : ℚ))) ∧
      (dist.map (fun p => p.2)).sum = 1 := by
  rw [computeTransitions, lookupTable_computeRelativeProbs] at hk
  cases hl : lookupTable (computeCounts corpus order tok) k with
  | none => rw [hl] at hk; simp at hk
  | some inner =>
      rw [hl] at hk
      have hdist : dist = normalizeInner inner := by
        simpa [eq_comm] using hk
      have hmem := lookupTable_mem _ _ _ hl
      have hpos := tablePos_computeCounts corpus order tok (k, inner) hmem
      have hsum : 0 < (inner.map (fun p => p.2)).sum := innerPos_sum_pos inner hpos.2 hpos.1
      refine ⟨inner, rfl, hsum, ?_, ?_⟩
      · rw [hdist]
        simp only [normalizeInner]
        rw [if_pos hsum]
      · rw [hdist]
        exact normalizeInner_sum_one inner hsum

/-- Claim C6: after training, the keys present in the transition table are
exactly the history suffixes that received at least one increment during
counting (no other keys exist, normalisation preserves the key list
entry-for-entry), and an empty corpus yields an empty table. -/
theorem computeTransitions_keys {ε : Type} (corpus : List ε) (order : Nat)
    (tok : ε → List Token) :
    (∀ k : List Token,
        (lookupTable (computeTransitions corpus order tok) k).isSome ↔
          ∃ t, (k, t) ∈ trainEvents corpus order tok) ∧
    (computeTransitions corpus order tok).map (fun p => p.1) =
      (computeCounts corpus order tok).map (fun p => p.1) ∧
    computeTransitions ([] : List ε) order tok = [] := by
  refine ⟨?_, ?_, rfl⟩
  · intro k
    rw [computeTransitions, lookupTable_computeRelativeProbs]
    cases hl : lookupTable (computeCounts corpus order tok) k with
    | none =>
        simp only [hl, Option.map_none', Option.isSome_none, Bool.false_eq_true, false_iff]
        rintro ⟨t, ht⟩
        obtain ⟨inner, c, hl2, -⟩ := (hasPair_computeCounts corpus order tok k t).mpr ht
        rw [hl] at hl2
        cases hl2
    | some inner =>
        have hmem := lookupTable_mem _ _ _ hl
        have hpos := tablePos_computeCounts corpus order tok (k, inner) hmem
        obtain ⟨q, rest, rfl⟩ : ∃ q rest, inner = q :: rest := by
          cases inner with
          | nil => exact absurd rfl hpos.1
          | cons q rest => exact ⟨q, rest, rfl⟩
        simp only [hl, Option.map_some', Option.isSome_some, true_iff]
        refine ⟨q.1, (hasPair_computeCounts corpus order tok k q.1).mp ?_⟩
        unfold hasPair
        exact ⟨q :: rest, q.2, hl, List.mem_cons_self _ _⟩
  · simp [computeTransitions, computeRelativeProbs, List.map_map]

/-- Claim C7: for a corpus entry that tokenizes to L tokens, training with
order k performs exactly k count increments per emission — one per trailing
suffix of the buffer, of lengths 1 through k — over the L + 1 emissions
(the tokens plus the appended end sentinel), for a total of (L + 1) * k
increments for that entry (the increments being the event list that
`computeCounts` folds over, by `computeCounts_eq`). -/
theorem entryEvents_increment_count {ε : Type} (entry : ε) (order : Nat)
    (tok : ε → List Token) (h : 1 ≤ order) :
    (entryEvents order (tok entry)).length = ((tok entry).length + 1) * order ∧
    ∀ p ∈ entryEvents order (tok entry), 1 ≤ p.1.length ∧ p.1.length ≤ order := by
  constructor
  · rw [entryEvents, entryEventsAux_length order h _ _ (prefilledBuffer_length _ _)]
    simp
  · intro p hp
    exact entryEventsAux_key_length order h _ _ (prefilledBuffer_length _ _) p hp

/-! ## Constructor lemmas -/

theorem markovInit_ok_inv {ε : Type} (c : List ε) (order : Nat) (tok : ε → List Token)
    (m : Markov ε) (h : markovInit (some c) order tok = .ok m) :
    1 ≤ order ∧ order ≤ 20 ∧
      m = ⟨order, startSymbol, endSymbol, tok, computeTransitions c order tok⟩ := by
  unfold markovInit at h
  split_ifs at h with hlt hgt
  injection h with h2
  exact ⟨by omega, by omega, h2.symm⟩

/-- Claim C5: construction succeeds exactly when the order lies in [1, 20]
and the corpus is non-null (so order 0 and order 21 fail, order 1 and
order 20 with a non-null corpus succeed, and a non-null empty corpus is
accepted, as instances of the equivalence). -/
theorem markovInit_ok_iff {ε : Type} (corpus : Option (List ε)) (order : Nat)
    (tok : ε → List Token) :
    (∃ m : Markov ε, markovInit corpus order tok = .ok m) ↔
      1 ≤ order ∧ order ≤ 20 ∧ corpus ≠ none := by
  constructor
  · rintro ⟨m, hm⟩
    cases corpus with
    | none =>
        exfalso
        unfold markovInit at hm
        split_ifs at hm
    | some c =>
        obtain ⟨ho1, ho2, -⟩ := markovInit_ok_inv c order tok m hm
        exact ⟨ho1, ho2, by simp⟩
  · rintro ⟨h1, h2, h3⟩
    unfold markovInit
    rw [if_neg (by omega), if_neg (by omega)]
    cases corpus with
    | none => exact absurd rfl h3
    | some c => exact ⟨_, rfl⟩

/-! ## Generation loop equations -/

theorem textGenAux_fuelOut (nt : List Token → Except GenErr Token)
    (emit : Token → List Token → List Token → Token) (ml : Option Nat)
    (lt le gen : List Token) :
    textGenAux nt emit ml 0 lt le gen = .fuelOut := by
  simp [textGenAux]

theorem textGenAux_sentinel (nt : List Token → Except GenErr Token)
    (emit : Token → List Token → List Token → Token) (ml : Option Nat) (fuel : Nat)
    (lt le gen : List Token) (hl : lt.getLast? = some endSymbol) :
    textGenAux nt emit ml (fuel + 1) lt le gen = .ok gen := by
  simp only [textGenAux, if_pos hl]

theorem textGenAux_error (nt : List Token → Except GenErr Token)
    (emit : Token → List Token → List Token → Token) (ml : Option Nat) (fuel : Nat)
    (lt le gen : List Token) (e : GenErr) (hl : ¬ lt.getLast? = some endSymbol)
    (hnt : nt lt = .error e) :
    textGenAux nt emit ml (fuel + 1) lt le gen = .err e := by
  simp only [textGenAux, if_neg hl, hnt]

theorem textGenAux_step_none (nt : List Token → Except GenErr Token)
    (emit : Token → List Token → List Token → Token) (fuel : Nat)
    (lt le gen : List Token) (t : Token) (hl : ¬ lt.getLast? = some endSymbol)
    (hnt : nt lt = .ok t) :
    textGenAux nt emit none (fuel + 1) lt le gen =
      textGenAux nt emit none fuel (bufAppend lt t) (bufAppend le (emit t lt le))
        (gen ++ [emit t lt le]) := by
  simp only [textGenAux, if_neg hl, hnt]

theorem textGenAux_step_some (nt : List Token → Except GenErr Token)
    (emit : Token → List Token → List Token → Token) (mx fuel : Nat)
    (lt le gen : List Token) (t : Token) (hl : ¬ lt.getLast? = some endSymbol)
    (hnt : nt lt = .ok t) :
    textGenAux nt emit (some mx) (fuel + 1) lt le gen =
      if mx + 1 ≤ gen.length + 1 then .ok (gen ++ [emit t lt le])
      else
        textGenAux nt emit (some mx) fuel (bufAppend lt t) (bufAppend le (emit t lt le))
          (gen ++ [emit t lt le]) := by
  simp only [textGenAux, if_neg hl, hnt, List.length_append, List.length_cons,
    List.length_nil, Nat.zero_add]

/-! ## Exit analysis of the generation loop -/

theorem textGenAux_ok_cases (nt : List Token → Except GenErr Token) (ml : Option Nat) :
    ∀ (fuel : Nat) (lt le gen out : List Token),
      (∀ mx, ml = some mx → gen.length ≤ mx) →
      textGenAux nt defaultEmit ml fuel lt le gen = .ok out →
      (out = gen ∧ lt.getLast? = some endSymbol) ∨
      out.getLast? = some endSymbol ∨
      (∃ mx, ml = some mx ∧ out.length = mx + 1) := by
  intro fuel
  induction fuel with
  | zero =>
      intro lt le gen out hg hr
      rw [textGenAux_fuelOut] at hr
      simp at hr
  | succ f ih =>
      intro lt le gen out hg hr
      by_cases hl : lt.getLast? = some endSymbol
      · rw [textGenAux_sentinel _ _ _ _ _ _ _ hl] at hr
        injection hr with h2
        exact Or.inl ⟨h2.symm, hl⟩
      · cases hnt : nt lt with
        | error e =>
            rw [textGenAux_error _ _ _ _ _ _ _ e hl hnt] at hr
            simp at hr
        | ok t =>
            cases ml with
            | none =>
                rw [textGenAux_step_none _ _ _ _ _ _ _ hl hnt] at hr
                have h2 := ih _ _ _ out (by intro mx hmx; simp at hmx) hr
                rcases h2 with ⟨rfl, hlast⟩ | h2 | h2
                · rw [bufAppend_getLast] at hlast
                  injection hlast with h3
                  subst h3
                  right; left
                  simp [defaultEmit, List.getLast?_concat]
                · exact Or.inr (Or.inl h2)
                · exact Or.inr (Or.inr h2)
            | some mx =>
                rw [textGenAux_step_some _ _ _ _ _ _ _ _ hl hnt] at hr
                by_cases hb : mx + 1 ≤ gen.length + 1
                · rw [if_pos hb] at hr
                  injection hr with h3
                  have hgl : gen.length ≤ mx := hg mx rfl
                  right; right
                  refine ⟨mx, rfl, ?_⟩
                  rw [← h3]
                  simp only [List.length_append, List.length_cons, List.length_nil,
                    Nat.zero_add]
                  omega
                · rw [if_neg hb] at hr
                  have h2 := ih _ _ _ out
                    (by
                      intro mx2 hmx2
                      injection hmx2 with h4
                      subst h4
                      simp only [List.length_append, List.length_cons, List.length_nil,
                        Nat.zero_add]
                      omega) hr
                  rcases h2 with ⟨rfl, hlast⟩ | h2 | h2
                  · rw [bufAppend_getLast] at hlast
                    injection hlast with h3
                    subst h3
                    right; left
                    simp [defaultEmit, List.getLast?_concat]
                  · exact Or.inr (Or.inl h2)
                  · exact Or.inr (Or.inr h2)

/-- Claim C2: `generate_text` returns the collected sequence with its
final element unconditionally removed; the run ends either by producing
the end sentinel (which is then the dropped final element, the emit being
the identity) or by reaching the `max_length` cap with exactly
`max_length + 1` collected emissions (the dropped element then being the
last generated token). -/
theorem generateText_dropLast {ε : Type} (m : Markov ε) (pick : ProbDist → Option Token)
    (ml : Option Nat) (fuel : Nat) (gen : List Token) (h1 : 1 ≤ m.order)
    (hrun : textGenAux (generateNextTokenHelper pick m.transitions) defaultEmit ml fuel
        (prefilledBuffer startSymbol m.order) (prefilledBuffer startSymbol m.order) [] =
      .ok gen) :
    generateText m pick ml fuel = .ok gen.dropLast ∧
    (gen.getLast? = some endSymbol ∨ ∃ mx, ml = some mx ∧ gen.length = mx + 1) := by
  constructor
  · rw [generateText, textGenerator, hrun]
  · have h2 := textGenAux_ok_cases (generateNextTokenHelper pick m.transitions) ml fuel
      (prefilledBuffer startSymbol m.order) (prefilledBuffer startSymbol m.order) [] gen
      (by intro mx hmx; simp) hrun
    rcases h2 with ⟨-, hlast⟩ | h2 | h2
    · rw [prefilledBuffer_getLast _ _ h1] at hlast
      injection hlast with h3
      exact absurd h3 startSymbol_ne_endSymbol
    · exact Or.inl h2
    · exact Or.inr h2

/-! ## Fuel and length bounds of the capped loop -/

theorem textGenAux_capped_ne_fuelOut (nt : List Token → Except GenErr Token)
    (emit : Token → List Token → List Token → Token) (mx : Nat) :
    ∀ (fuel : Nat) (lt le gen : List Token), mx + 1 ≤ gen.length + fuel → 1 ≤ fuel →
      textGenAux nt emit (some mx) fuel lt le gen ≠ .fuelOut := by
  intro fuel
  induction fuel with
  | zero => intro lt le gen hsum hf; omega
  | succ f ih =>
      intro lt le gen hsum hf
      by_cases hl : lt.getLast? = some endSymbol
      · rw [textGenAux_sentinel _ _ _ _ _ _ _ hl]
        simp
      · cases hnt : nt lt with
        | error e =>
            rw [textGenAux_error _ _ _ _ _ _ _ e hl hnt]
            simp
        | ok t =>
            rw [textGenAux_step_some _ _ _ _ _ _ _ _ hl hnt]
            by_cases hb : mx + 1 ≤ gen.length + 1
            · rw [if_pos hb]
              simp
            · rw [if_neg hb]
              refine ih _ _ _ ?_ ?_
              · simp only [List.length_append, List.length_cons, List.length_nil,
                  Nat.zero_add]
                omega
              · omega

theorem textGenAux_capped_ok_length (nt : List Token → Except GenErr Token)
    (emit : Token → List Token → List Token → Token) (mx : Nat) :
    ∀ (fuel : Nat) (lt le gen out : List Token), gen.length ≤ mx →
      textGenAux nt emit (some mx) fuel lt le gen = .ok out → out.length ≤ mx + 1 := by
  intro fuel
  induction fuel with
  | zero =>
      intro lt le gen out hg hr
      rw [textGenAux_fuelOut] at hr
      simp at hr
  | succ f ih =>
      intro lt le gen out hg hr
      by_cases hl : lt.getLast? = some endSymbol
      · rw [textGenAux_sentinel _ _ _ _ _ _ _ hl] at hr
        injection hr with h2
        rw [← h2]
        omega
      · cases hnt : nt lt with
        | error e =>
            rw [textGenAux_error _ _ _ _ _ _ _ e hl hnt] at hr
            simp at hr
        | ok t =>
            rw [textGenAux_step_some _ _ _ _ _ _ _ _ hl hnt] at hr
            by_cases hb : mx + 1 ≤ gen.length + 1
            · rw [if_pos hb] at hr
              injection hr with h2
              rw [← h2]
              simp only [List.length_append, List.length_cons, List.length_nil, Nat.zero_add]
              omega
            · rw [if_neg hb] at hr
              refine ih _ _ _ out ?_ hr
              simp only [List.length_append, List.length_cons, List.length_nil, Nat.zero_add]
              omega

/-- Claim C8: with `max_length` set to `mx`, the loop performs at most
`mx + 1` iterations (fuel `mx + 1` can never be exhausted), any returned
sequence has length at most `mx`, and with `max_length = 0` a successful
step (the initial key present and the oracle producing a token) returns
the empty sequence. -/
theorem generateText_maxLength_bound {ε : Type} (m : Markov ε)
    (pick : ProbDist → Option Token) (mx fuel : Nat) (h1 : 1 ≤ m.order)
    (hf : mx + 1 ≤ fuel) :
    textGenAux (generateNextTokenHelper pick m.transitions) defaultEmit (some mx) fuel
        (prefilledBuffer startSymbol m.order) (prefilledBuffer startSymbol m.order) [] ≠
      .fuelOut ∧
    (∀ out, generateText m pick (some mx) fuel = .ok out → out.length ≤ mx) ∧
    (∀ dist t, lookupTable m.transitions (prefilledBuffer startSymbol m.order) = some dist →
      pick dist = some t → generateText m pick (some 0) fuel = .ok []) := by
  refine ⟨?_, ?_, ?_⟩
  · exact textGenAux_capped_ne_fuelOut _ _ mx fuel _ _ [] (by simpa using hf) (by omega)
  · intro out hout
    rw [generateText, textGenerator] at hout
    cases hrun : textGenAux (generateNextTokenHelper pick m.transitions) defaultEmit (some mx)
        fuel (prefilledBuffer startSymbol m.order) (prefilledBuffer startSymbol m.order) [] with
    | ok gen =>
        rw [hrun] at hout
        injection hout with h2
        have h3 := textGenAux_capped_ok_length _ _ mx fuel _ _ [] gen (by simp) hrun
        rw [← h2]
        have h4 := List.length_dropLast gen
        omega
    | err e => rw [hrun] at hout; simp at hout
    | fuelOut => rw [hrun] at hout; simp at hout
  · intro dist t hdist hpick
    obtain ⟨f, rfl⟩ : ∃ f, fuel = f + 1 := ⟨fuel - 1, by omega⟩
    have hl : ¬ (prefilledBuffer startSymbol m.order).getLast? = some endSymbol := by
      rw [prefilledBuffer_getLast _ _ h1]
      intro h2
      injection h2 with h3
      exact absurd h3 startSymbol_ne_endSymbol
    have hnt : generateNextTokenHelper pick m.transitions (prefilledBuffer startSymbol m.order) =
        .ok t := by
      simp only [generateNextTokenHelper, hdist, hpick]
    rw [generateText, textGenerator,
      textGenAux_step_some _ _ 0 f _ _ [] t hl hnt, if_pos (by simp)]
    simp [defaultEmit]

/-- Claim C4: the next token is obtained by looking up exactly the
full-length key (the entire history buffer) in the transition table — the
helper fails with `unknownKey` on precisely that key exactly when the key
is absent — and when the initial full-length key is absent the whole
generation call fails with that error, returning no partial sequence. -/
theorem generateText_unknownKey_fatal {ε : Type} (m : Markov ε)
    (pick : ProbDist → Option Token) (ml : Option Nat) (fuel : Nat) (h1 : 1 ≤ m.order)
    (habs : lookupTable m.transitions (prefilledBuffer startSymbol m.order) = none) :
    (∀ ps : List Token,
      generateNextTokenHelper pick m.transitions ps = .error (.unknownKey ps) ↔
        lookupTable m.transitions ps = none) ∧
    generateText m pick ml (fuel + 1) =
      .err (.unknownKey (prefilledBuffer startSymbol m.order)) := by
  constructor
  · intro ps
    constructor
    · intro h2
      cases hlk : lookupTable m.transitions ps with
      | none => rfl
      | some dist =>
          cases hp : pick dist with
          | none =>
              simp only [generateNextTokenHelper, hlk, hp] at h2
              simp at h2
          | some t =>
              simp only [generateNextTokenHelper, hlk, hp] at h2
              simp at h2
    · intro h2
      rw [generateNextTokenHelper, h2]
  · have hl : ¬ (prefilledBuffer startSymbol m.order).getLast? = some endSymbol := by
      rw [prefilledBuffer_getLast _ _ h1]
      intro h2
      injection h2 with h3
      exact absurd h3 startSymbol_ne_endSymbol
    have hnt : generateNextTokenHelper pick m.transitions
        (prefilledBuffer startSymbol m.order) =
        .error (.unknownKey (prefilledBuffer startSymbol m.order)) := by
      rw [generateNextTokenHelper, habs]
    rw [generateText, textGenerator, textGenAux_error _ _ ml fuel _ _ [] _ hl hnt]

/-- Claim C3 (counterexample): the sequence collected by `_text_generator`
is not independent of the emit transform — on a model trained on the
single entry `["a"]`, a constant emit produces a different output than the
default identity emit, so the appended element is not the raw sampled
token. -/
theorem textGenerator_depends_on_emit :
    textGenerator
        (generateNextTokenHelper pickFirst (computeTransitions [["a"]] 1 (fun x => x)))
        (fun _ _ _ => "X") none 1 1 5 ≠
      textGenerator
        (generateNextTokenHelper pickFirst (computeTransitions [["a"]] 1 (fun x => x)))
        defaultEmit none 1 1 5 := by
  decide

/-- Claim C3 (amended): at every step of the generation loop, the element
appended to the collected output sequence is the emission
`emit new_token last_tokens last_emissions` — not the raw token — and only
for the default identity emit (as used by `generate_text`) does the
emission coincide with the raw sampled token. -/
theorem textGenAux_appends_emission (nt : List Token → Except GenErr Token)
    (emit : Token → List Token → List Token → Token) (ml : Option Nat) (fuel : Nat)
    (lt le gen : List Token) (t : Token) (hl : ¬ lt.getLast? = some endSymbol)
    (hnt : nt lt = .ok t) :
    textGenAux nt emit ml (fuel + 1) lt le gen =
      (match ml with
       | some mx =>
           if mx + 1 ≤ (gen ++ [emit t lt le]).length then .ok (gen ++ [emit t lt le])
           else
             textGenAux nt emit ml fuel (bufAppend lt t) (bufAppend le (emit t lt le))
               (gen ++ [emit t lt le])
       | none =>
           textGenAux nt emit ml fuel (bufAppend lt t) (bufAppend le (emit t lt le))
             (gen ++ [emit t lt le])) ∧
    defaultEmit t lt le = t := by
  refine ⟨?_, rfl⟩
  cases ml with
  | none => exact textGenAux_step_none nt emit fuel lt le gen t hl hnt
  | some mx =>
      rw [textGenAux_step_some nt emit mx fuel lt le gen t hl hnt]
      simp only [List.length_append, List.length_cons, List.length_nil, Nat.zero_add]

/-! ## Frame property of generation -/

theorem generateNextTokenHelperSt_model {ε : Type} (pick : ProbDist → Option Token)
    (m : Markov ε) (ps : List Token) :
    (generateNextTokenHelperSt pick m ps).2 = m := by
  by_cases h : (lookupTable m.transitions ps).isSome
  · obtain ⟨dist, hd⟩ := Option.isSome_iff_exists.mp h
    simp only [generateNextTokenHelperSt, h, if_true, ddGet, hd]
    cases hp : pick dist <;> rfl
  · simp [generateNextTokenHelperSt, h]

theorem textGenAuxSt_model {ε : Type} (pick : ProbDist → Option Token)
    (emit : Token → List Token → List Token → Token) (ml : Option Nat) :
    ∀ (fuel : Nat) (m : Markov ε) (lt le gen : List Token),
      (textGenAuxSt pick emit ml fuel m lt le gen).2 = m := by
  intro fuel
  induction fuel with
  | zero => intro m lt le gen; rfl
  | succ f ih =>
      intro m lt le gen
      have hm := generateNextTokenHelperSt_model pick m lt
      by_cases hl : lt.getLast? = some endSymbol
      · simp [textGenAuxSt, hl]
      · cases hr : (generateNextTokenHelperSt pick m lt).1 with
        | error e => simp [textGenAuxSt, hl, hr, hm]
        | ok t =>
            cases ml with
            | none => simp [textGenAuxSt, hl, hr, hm, ih]
            | some mx =>
                by_cases hb : mx + 1 ≤ gen.length + 1
                · simp [textGenAuxSt, hl, hr, hm, hb]
                · simp [textGenAuxSt, hl, hr, hm, hb, ih]

/-- Claim C9: `generate_text` never mutates the model — after a stateful
run that threads the model through every dictionary access (including the
`defaultdict` item accesses that could insert missing keys), the model,
and in particular its transition table, order, sentinels and tokenizer,
are all unchanged, for any `max_length` and fuel. -/
theorem generateTextSt_preserves_model {ε : Type} (m : Markov ε)
    (pick : ProbDist → Option Token) (ml : Option Nat) (fuel : Nat) :
    (generateTextSt m pick ml fuel).2 = m ∧
    ((generateTextSt m pick ml fuel).2).transitions = m.transitions ∧
    ((generateTextSt m pick ml fuel).2).order = m.order ∧
    ((generateTextSt m pick ml fuel).2).startSym = m.startSym ∧
    ((generateTextSt m pick ml fuel).2).endSym = m.endSym ∧
    ((generateTextSt m pick ml fuel).2).tokenize = m.tokenize := by
  have h2 := textGenAuxSt_model pick defaultEmit ml fuel m
    (prefilledBuffer startSymbol m.order) (prefilledBuffer startSymbol m.order) []
  have hmain : (generateTextSt m pick ml fuel).2 = m := by
    cases hr : (textGenAuxSt pick defaultEmit ml fuel m (prefilledBuffer startSymbol m.order)
        (prefilledBuffer startSymbol m.order) []).1 with
    | ok gen => simp [generateTextSt, hr, h2]
    | err e => simp [generateTextSt, hr, h2]
    | fuelOut => simp [generateTextSt, hr, h2]
  refine ⟨hmain, ?_, ?_, ?_, ?_, ?_⟩ <;> rw [hmain]

/-! ## Reachability invariant: every reachable full buffer is a key -/

theorem mem_normalizeInner_inv (inner : CountsDist) (t : Token) (w : ℚ)
    (h : (t, w) ∈ normalizeInner inner) : ∃ c, (t, c) ∈ inner := by
  simp only [normalizeInner] at h
  split_ifs at h
  all_goals
    obtain ⟨p, hp, he⟩ := List.mem_map.mp h
    obtain ⟨a, b⟩ := p
    simp only [Prod.mk.injEq] at he
    obtain ⟨rfl, -⟩ := he
    exact ⟨b, hp⟩

theorem entryEventsAux_closure (order : Nat) (h1 : 1 ≤ order) :
    ∀ (l buf : List Token), buf.length = order → l.getLast? = some endSymbol →
      ∀ (b : List Token) (t : Token), b.length = order → (b, t) ∈ entryEventsAux buf l →
        t ≠ endSymbol → ∃ t2, (bufAppend b t, t2) ∈ entryEventsAux buf l := by
  intro l
  induction l with
  | nil =>
      intro buf hb hlast b t hbl hmem ht
      simp [entryEventsAux] at hmem
  | cons t0 rest ih =>
      intro buf hb hlast b t hbl hmem ht
      have hb2 : (bufAppend buf t0).length = order := by
        rw [bufAppend_length buf t0 (by omega), hb]
      rcases List.mem_append.mp hmem with hm1 | hm2
      · obtain ⟨s, hs, he⟩ := List.mem_map.mp hm1
        simp only [Prod.mk.injEq] at he
        obtain ⟨hsb, htt⟩ := he
        simp only [getSuffixes, List.mem_map] at hs
        obtain ⟨i, hi, hdrop⟩ := hs
        have hi2 : i < buf.length := List.mem_range.mp hi
        have hi0 : i = 0 := by
          have hdl : (buf.drop i).length = buf.length - i := List.length_drop i buf
          rw [hdrop, hsb] at hdl
          omega
        have hbb : b = buf := by rw [← hsb, ← hdrop, hi0, List.drop_zero]
        subst hbb
        cases rest with
        | nil =>
            exfalso
            simp only [List.getLast?_singleton, Option.some.injEq] at hlast
            refine ht ?_
            rw [← htt]
            exact hlast
        | cons t1 rest2 =>
            refine ⟨t1, List.mem_append.mpr (Or.inr ?_)⟩
            rw [entryEventsAux]
            refine List.mem_append.mpr (Or.inl ?_)
            have hba : bufAppend b t = bufAppend b t0 := by rw [← htt]
            rw [hba]
            exact List.mem_map.mpr
              ⟨bufAppend b t0, self_mem_getSuffixes _ (by rw [hb2]; omega), rfl⟩
      · cases rest with
        | nil => simp [entryEventsAux] at hm2
        | cons t1 rest2 =>
            rw [List.getLast?_cons_cons] at hlast
            obtain ⟨t2, ht2⟩ := ih (bufAppend buf t0) hb2 hlast b t hbl hm2 ht
            exact ⟨t2, List.mem_append.mpr (Or.inr ht2)⟩

theorem entryEvents_closure (order : Nat) (h1 : 1 ≤ order) (tokens : List Token)
    (b : List Token) (t : Token) (hbl : b.length = order)
    (hmem : (b, t) ∈ entryEvents order tokens) (ht : t ≠ endSymbol) :
    ∃ t2, (bufAppend b t, t2) ∈ entryEvents order tokens := by
  refine entryEventsAux_closure order h1 _ _ (prefilledBuffer_length _ _) ?_ b t hbl hmem ht
  simp [List.getLast?_concat]

theorem initial_key_isSome {ε : Type} (corpus : List ε) (order : Nat) (tok : ε → List Token)
    (h1 : 1 ≤ order) (hne : corpus ≠ []) :
    (lookupTable (computeTransitions corpus order tok)
      (prefilledBuffer startSymbol order)).isSome := by
  obtain ⟨e, rest, rfl⟩ : ∃ e rest, corpus = e :: rest := by
    cases corpus with
    | nil => exact absurd rfl hne
    | cons e rest => exact ⟨e, rest, rfl⟩
  obtain ⟨t0, l2, hext⟩ : ∃ t0 l2, tok e ++ [endSymbol] = t0 :: l2 := by
    cases htok : tok e with
    | nil => exact ⟨endSymbol, [], by simp⟩
    | cons a as => exact ⟨a, as ++ [endSymbol], by simp⟩
  have hmem : (prefilledBuffer startSymbol order, t0) ∈ entryEvents order (tok e) := by
    rw [entryEvents, hext, entryEventsAux]
    refine List.mem_append.mpr (Or.inl ?_)
    exact List.mem_map.mpr
      ⟨prefilledBuffer startSymbol order,
        self_mem_getSuffixes _ (by rw [prefilledBuffer_length]; omega), rfl⟩
  have hp : hasPair (computeCounts (e :: rest) order tok) (prefilledBuffer startSymbol order)
      t0 := by
    refine (hasPair_computeCounts _ order tok _ t0).mpr ?_
    rw [trainEvents]
    exact List.mem_flatMap.mpr ⟨e, List.mem_cons_self _ _, hmem⟩
  obtain ⟨inner, c, hl, -⟩ := hp
  rw [computeTransitions, lookupTable_computeRelativeProbs, hl]
  simp

theorem generate_invariant_step {ε : Type} (corpus : List ε) (order : Nat)
    (tok : ε → List Token) (h1 : 1 ≤ order) (b : List Token) (t : Token) (dist : ProbDist)
    (hbl : b.length = order)
    (hlk : lookupTable (computeTransitions corpus order tok) b = some dist)
    (hmem : ∃ w, (t, w) ∈ dist) :
    (bufAppend b t).length = order ∧
      ((lookupTable (computeTransitions corpus order tok) (bufAppend b t)).isSome ∨
        (bufAppend b t).getLast? = some endSymbol) := by
  refine ⟨by rw [bufAppend_length b t (by omega), hbl], ?_⟩
  by_cases ht : t = endSymbol
  · right
    rw [ht] at *
    exact bufAppend_getLast b endSymbol
  · left
    obtain ⟨w, hw⟩ := hmem
    rw [computeTransitions, lookupTable_computeRelativeProbs] at hlk
    cases hcl : lookupTable (computeCounts corpus order tok) b with
    | none => rw [hcl] at hlk; simp at hlk
    | some inner =>
        rw [hcl] at hlk
        simp only [Option.map_some'] at hlk
        have hdist : dist = normalizeInner inner := by
          injection hlk with h2
          exact h2.symm
        obtain ⟨c, hc⟩ := mem_normalizeInner_inv inner t w (hdist ▸ hw)
        have hp : hasPair (computeCounts corpus order tok) b t := ⟨inner, c, hcl, hc⟩
        have hev := (hasPair_computeCounts corpus order tok b t).mp hp
        rw [trainEvents] at hev
        obtain ⟨e, he, hbe⟩ := List.mem_flatMap.mp hev
        obtain ⟨t2, ht2⟩ := entryEvents_closure order h1 (tok e) b t hbl hbe ht
        have hp2 : hasPair (computeCounts corpus order tok) (bufAppend b t) t2 := by
          refine (hasPair_computeCounts corpus order tok _ t2).mpr ?_
          rw [trainEvents]
          exact List.mem_flatMap.mpr ⟨e, he, ht2⟩
        obtain ⟨inner2, c2, hl2, -⟩ := hp2
        rw [computeTransitions, lookupTable_computeRelativeProbs, hl2]
        simp

theorem textGenAux_no_unknownKey {ε : Type} (corpus : List ε) (order : Nat)
    (tok : ε → List Token) (pick : ProbDist → Option Token)
    (emit : Token → List Token → List Token → Token) (ml : Option Nat) (h1 : 1 ≤ order)
    (hpick : ∀ dist t, pick dist = some t → ∃ w, (t, w) ∈ dist ∧ 0 < w) :
    ∀ (fuel : Nat) (lt le gen : List Token), lt.length = order →
      ((lookupTable (computeTransitions corpus order tok) lt).isSome ∨
        lt.getLast? = some endSymbol) →
      ∀ key : List Token,
        textGenAux (generateNextTokenHelper pick (computeTransitions corpus order tok)) emit
            ml fuel lt le gen ≠ .err (.unknownKey key) := by
  intro fuel
  induction fuel with
  | zero =>
      intro lt le gen hlen hinv key
      rw [textGenAux_fuelOut]
      simp
  | succ f ih =>
      intro lt le gen hlen hinv key
      by_cases hl : lt.getLast? = some endSymbol
      · rw [textGenAux_sentinel _ _ _ _ _ _ _ hl]
        simp
      · have hks : (lookupTable (computeTransitions corpus order tok) lt).isSome := by
          rcases hinv with h2 | h2
          · exact h2
          · exact absurd h2 hl
        obtain ⟨dist, hdist⟩ := Option.isSome_iff_exists.mp hks
        cases hp : pick dist with
        | none =>
            have hnt : generateNextTokenHelper pick (computeTransitions corpus order tok) lt =
                .error (.pickFail lt) := by
              simp only [generateNextTokenHelper, hdist, hp]
            rw [textGenAux_error _ _ _ _ _ _ _ _ hl hnt]
            simp
        | some t =>
            have hnt : generateNextTokenHelper pick (computeTransitions corpus order tok) lt =
                .ok t := by
              simp only [generateNextTokenHelper, hdist, hp]
            obtain ⟨w, hw, -⟩ := hpick dist t hp
            have hstep := generate_invariant_step corpus order tok h1 lt t dist hlen hdist
              ⟨w, hw⟩
            cases ml with
            | none =>
                rw [textGenAux_step_none _ _ _ _ _ _ _ hl hnt]
                exact ih _ _ _ hstep.1 hstep.2 key
            | some mx =>
                rw [textGenAux_step_some _ _ _ _ _ _ _ _ hl hnt]
                by_cases hb : mx + 1 ≤ gen.length + 1
                · rw [if_pos hb]
                  simp
                · rw [if_neg hb]
                  exact ih _ _ _ hstep.1 hstep.2 key

/-- Claim C10: for a model constructed on a non-empty corpus, with a
weighted-choice oracle that only returns outcomes of positive weight, the
key-membership assertion of `_generate_next_token_helper` never fails
during `generate_text`: every reachable full-length history buffer is a
key of the transition table, so the `unknownKey` error is unreachable for
any `max_length` and any fuel. -/
theorem generateText_no_unknownKey {ε : Type} (corpus : List ε) (order : Nat)
    (tok : ε → List Token) (m : Markov ε) (pick : ProbDist → Option Token)
    (ml : Option Nat) (fuel : Nat) (key : List Token)
    (hinit : markovInit (some corpus) order tok = .ok m) (hne : corpus ≠ [])
    (hpick : ∀ dist t, pick dist = some t → ∃ w, (t, w) ∈ dist ∧ 0 < w) :
    generateText m pick ml fuel ≠ .err (.unknownKey key) := by
  obtain ⟨h1, h2, rfl⟩ := markovInit_ok_inv corpus order tok m hinit
  intro hbad
  simp only [generateText, textGenerator] at hbad
  have hsafe := textGenAux_no_unknownKey corpus order tok pick defaultEmit ml h1 hpick fuel
    (prefilledBuffer startSymbol order) (prefilledBuffer startSymbol order) []
    (prefilledBuffer_length _ _) (Or.inl (initial_key_isSome corpus order tok h1 hne)) key
  cases hres : textGenAux (generateNextTokenHelper pick (computeTransitions corpus order tok))
      defaultEmit ml fuel (prefilledBuffer startSymbol order)
      (prefilledBuffer startSymbol order) [] with
  | ok gen => rw [hres] at hbad; simp at hbad
  | err e =>
      rw [hres] at hbad
      simp at hbad
      rw [hbad] at hres
      exact hsafe hres
  | fuelOut => rw [hres] at hbad; simp at hbad

/-! ## Witnesses -/

theorem pickFirstPositive_spec (dist : ProbDist) (t : Token)
    (h : pickFirstPositive dist = some t) : ∃ w, (t, w) ∈ dist ∧ 0 < w := by
  simp only [pickFirstPositive, Option.map_eq_some'] at h
  obtain ⟨p, hp, he⟩ := h
  have hmem := List.mem_of_mem_head? hp
  have h2 := List.mem_filter.mp hmem
  refine ⟨p.2, ?_, by simpa using h2.2⟩
  rw [← he]
  exact h2.1

theorem computeTransitions_sum_one_witness :
    ((1 : Nat) ≤ 1 ∧ (1 : Nat) ≤ 20 ∧
      lookupTable (computeTransitions [["a"]] 1 (fun x => x)) [startSymbol] =
        some (normalizeInner [("a", 1)])) ∧
    (∃ inner : CountsDist,
      lookupTable (computeCounts [["a"]] 1 (fun x => x)) [startSymbol] = some inner ∧
      0 < (inner.map (fun p => p.2)).sum ∧
      normalizeInner [("a", 1)] = inner.map
        (fun p => (p.1, (p.2 : ℚ) / (((inner.map (fun q => q.2)).sum : Nat) : ℚ))) ∧
      ((normalizeInner [("a", 1)]).map (fun p => p.2)).sum = 1) :=
  ⟨⟨le_refl 1, by omega, rfl⟩,
    computeTransitions_sum_one [["a"]] 1 (fun x => x) (le_refl 1) (by omega) [startSymbol]
      (normalizeInner [("a", 1)]) rfl⟩

theorem generateText_dropLast_witness :
    (1 ≤ witnessModel.order ∧
      textGenAux (generateNextTokenHelper pickFirst witnessModel.transitions) defaultEmit none 5
        (prefilledBuffer startSymbol witnessModel.order)
        (prefilledBuffer startSymbol witnessModel.order) [] = .ok ["a", endSymbol]) ∧
    (generateText witnessModel pickFirst none 5 = .ok (["a", endSymbol] : List Token).dropLast ∧
      ((["a", endSymbol] : List Token).getLast? = some endSymbol ∨
        ∃ mx, (none : Option Nat) = some mx ∧ (["a", endSymbol] : List Token).length = mx + 1)) :=
  ⟨⟨by decide, by decide⟩,
    generateText_dropLast witnessModel pickFirst none 5 ["a", endSymbol] (by decide) (by decide)⟩

theorem textGenAux_appends_emission_witness :
    (¬ ([startSymbol] : List Token).getLast? = some endSymbol ∧
      (fun _ : List Token => (Except.ok "a" : Except GenErr Token)) [startSymbol] = .ok "a") ∧
    (textGenAux (fun _ => (.ok "a" : Except GenErr Token)) defaultEmit none 1 [startSymbol]
        [startSymbol] [] =
      textGenAux (fun _ => (.ok "a" : Except GenErr Token)) defaultEmit none 0
        (bufAppend [startSymbol] "a") (bufAppend [startSymbol] "a") ["a"] ∧
      defaultEmit "a" [startSymbol] [startSymbol] = "a") :=
  ⟨⟨by decide, rfl⟩,
    textGenAux_appends_emission (fun _ => .ok "a") defaultEmit none 0 [startSymbol]
      [startSymbol] [] "a" (by decide) rfl⟩

theorem generateText_unknownKey_fatal_witness :
    (1 ≤ emptyModel.order ∧
      lookupTable emptyModel.transitions (prefilledBuffer startSymbol emptyModel.order) =
        none) ∧
    ((∀ ps : List Token,
        generateNextTokenHelper pickFirst emptyModel.transitions ps =
            .error (.unknownKey ps) ↔
          lookupTable emptyModel.transitions ps = none) ∧
      generateText emptyModel pickFirst none (4 + 1) =
        .err (.unknownKey (prefilledBuffer startSymbol emptyModel.order))) :=
  ⟨⟨by decide, by decide⟩,
    generateText_unknownKey_fatal emptyModel pickFirst none 4 (by decide) (by decide)⟩

theorem entryEvents_increment_count_witness :
    (1 : Nat) ≤ 1 ∧
    ((entryEvents 1 ((fun x => x) (["a"] : List String))).length =
        (((fun x => x) (["a"] : List String)).length + 1) * 1 ∧
      ∀ p ∈ entryEvents 1 ((fun x => x) (["a"] : List String)),
        1 ≤ p.1.length ∧ p.1.length ≤ 1) :=
  ⟨le_refl 1, entryEvents_increment_count (["a"] : List String) 1 (fun x => x) (le_refl 1)⟩

theorem generateText_maxLength_bound_witness :
    (1 ≤ witnessModel.order ∧ 0 + 1 ≤ 1) ∧
    (textGenAux (generateNextTokenHelper pickFirst witnessModel.transitions) defaultEmit
        (some 0) 1 (prefilledBuffer startSymbol witnessModel.order)
        (prefilledBuffer startSymbol witnessModel.order) [] ≠ .fuelOut ∧
      (∀ out, generateText witnessModel pickFirst (some 0) 1 = .ok out → out.length ≤ 0) ∧
      (∀ dist t,
        lookupTable witnessModel.transitions (prefilledBuffer startSymbol witnessModel.order) =
            some dist →
          pickFirst dist = some t → generateText witnessModel pickFirst (some 0) 1 = .ok [])) :=
  ⟨⟨by decide, by decide⟩,
    generateText_maxLength_bound witnessModel pickFirst 0 1 (by decide) (by decide)⟩

theorem generateText_no_unknownKey_witness :
    (markovInit (some [["a"]]) 1 (fun x => x) = .ok witnessModel ∧
      ([["a"]] : List (List String)) ≠ []) ∧
    generateText witnessModel pickFirstPositive none 5 ≠ .err (.unknownKey [startSymbol]) :=
  ⟨⟨rfl, by decide⟩,
    generateText_no_unknownKey [["a"]] 1 (fun x => x) witnessModel pickFirstPositive none 5
      [startSymbol] rfl (by decide) pickFirstPositive_spec⟩

end Smarkov
